import Mathlib

/-!
Verification development for the mpubsub publish-subscribe system.

The local dispatcher (`mpubsub/__init__.py`), the network endpoint
(`mpubsub/net.py`) and the broker (`mpubsub/broker.py`) are embedded
shallowly: pure Lean functions over explicit state, with subscribers,
connections and payloads identified by natural numbers, and Python
exceptions as explicit outcome values.
-/

/-- A topic key: the tuple of strings under which subscribers are stored
in the subscription table. -/
abbrev Key := List String

/-- The Python value passed as a topic argument: `None`, a bare string,
or a tuple of strings. -/
inductive PyTopic where
  | none
  | str (s : String)
  | tup (ts : List String)
deriving DecidableEq

/-- Topic normalization used by `add_subscriber` and `remove_subscriber`
(`__init__.py` lines 35-38 and 56-59): `None` becomes the empty tuple, a
bare string a 1-tuple, a tuple stays itself. -/
def normalizeSub : PyTopic → Key
  | .none => []
  | .str s => [s]
  | .tup ts => ts

/-- A weak subscriber reference held in the table: the identity of the
subscriber and whether the referent is still alive (`ref()` returns the
subscriber rather than `None`). -/
structure Ref where
  id : Nat
  alive : Bool
deriving DecidableEq

/-- What a subscriber does when invoked: return normally, raise
`TypeError` (e.g. a keyword-signature mismatch), or raise any other
exception. -/
inductive Beh where
  | ok
  | typeErr
  | otherErr
deriving DecidableEq

/-- The subscription table `self._subs`: an insertion-ordered mapping
from keys to insertion-ordered lists of weak references, embedded as an
association list (Python dicts preserve insertion order and have unique
keys; lookup takes the first matching entry). -/
abbrev Subs := List (Key × List Ref)

/-- Dictionary lookup `self._subs[topic]`. -/
def subsLookup (tbl : Subs) (k : Key) : Option (List Ref) :=
  match tbl with
  | [] => Option.none
  | (k', rs) :: rest => if k' = k then some rs else subsLookup rest k

/-- The table update of `add_subscriber` (`__init__.py` lines 40-47):
create the entry if missing (a new dict key goes to the end), then append
the fresh weak reference to the topic's list. -/
def addEntry : Subs → Key → Ref → Subs
  | [], k, r => [(k, [r])]
  | (k', rs) :: rest, k, r =>
    if k' = k then (k', rs ++ [r]) :: rest else (k', rs) :: addEntry rest k r

/-- `PubSub.add_subscriber` (`__init__.py` lines 25-47). -/
def add_subscriber (tbl : Subs) (topic : PyTopic) (r : Ref) : Subs :=
  addEntry tbl (normalizeSub topic) r

/-- The removal scan of `remove_subscriber` (`__init__.py` lines 66-70):
drop the first reference whose live referent equals the subscriber; a
dead reference resolves to `None` and never matches. -/
def removeFirstRef : List Ref → Nat → List Ref
  | [], _ => []
  | r :: rest, tgt =>
    if r.alive ∧ r.id = tgt then rest else r :: removeFirstRef rest tgt

/-- Replace the entry of key `k` by its list with the first matching
reference removed. -/
def updateEntry : Subs → Key → Nat → Subs
  | [], _, _ => []
  | (k', rs) :: rest, k, tgt =>
    if k' = k then (k', removeFirstRef rs tgt) :: rest
    else (k', rs) :: updateEntry rest k tgt

/-- `PubSub.remove_subscriber` (`__init__.py` lines 49-70): normalize the
topic, return silently on a missing key, otherwise remove the first
matching reference from that key's list. -/
def remove_subscriber (tbl : Subs) (topic : PyTopic) (tgt : Nat) : Subs :=
  match subsLookup tbl (normalizeSub topic) with
  | Option.none => tbl
  | some _ => updateEntry tbl (normalizeSub topic) tgt

/-- The observable outcome of one `publish` run: the invocations made, in
order, as (subscriber id, first positional argument, payload); the
subscriber ids warned about after a `TypeError`; and the id of the
subscriber whose exception escaped, if any. -/
structure DOut where
  calls : List (Nat × Key × Nat)
  warns : List Nat
  raised : Option Nat
deriving DecidableEq

/-- The per-key loop of `publish` (`__init__.py` lines 99-106): iterate
one key's reference list in order; skip dead referents; invoke live ones
with the originally published topic and the payload; on `TypeError` warn
and continue with the remaining references; any other exception aborts
delivery and escapes. -/
def deliverRefs (beh : Nat → Beh) (orig : Key) (kw : Nat) :
    List Ref → DOut → DOut
  | [], acc => acc
  | r :: rest, acc =>
    if r.alive then
      match beh r.id with
      | .ok => deliverRefs beh orig kw rest
          { acc with calls := acc.calls ++ [(r.id, orig, kw)] }
      | .typeErr => deliverRefs beh orig kw rest
          { acc with calls := acc.calls ++ [(r.id, orig, kw)],
                     warns := acc.warns ++ [r.id] }
      | .otherErr =>
          { acc with calls := acc.calls ++ [(r.id, orig, kw)],
                     raised := some r.id }
    else deliverRefs beh orig kw rest acc

/-- `takesDesc t n = [t.take n, t.take (n-1), …, t.take 0]`. -/
def takesDesc (t : Key) : Nat → List Key
  | 0 => [[]]
  | n+1 => t.take (n+1) :: takesDesc t n

/-- The keys visited by the `while` loop of `publish` (`__init__.py`
lines 92-109): the published topic itself, then repeatedly `topic[:-1]`,
ending at the empty key (`topic[:-1]` of a tuple of length `m` is its
first `m-1` elements, i.e. `t.take (m-1)`). -/
def topicChain (t : Key) : List Key := takesDesc t t.length

/-- The topic loop of `publish`: deliver on each key of the chain in
turn; a missing key is skipped (`KeyError: pass`); an escaped subscriber
exception stops the whole loop. -/
def pubKeys (tbl : Subs) (beh : Nat → Beh) (kw : Nat) (orig : Key) :
    List Key → DOut → DOut
  | [], acc => acc
  | k :: rest, acc =>
    let acc' :=
      match subsLookup tbl k with
      | Option.none => acc
      | some refs => deliverRefs beh orig kw refs acc
    if acc'.raised.isSome then acc' else pubKeys tbl beh kw orig rest acc'

/-- `PubSub.publish` after topic normalization: hierarchical delivery of
the topic tuple `t` against table `tbl`, each subscriber id `i` behaving
as `beh i`, with opaque payload `kw`. -/
def publishKey (tbl : Subs) (beh : Nat → Beh) (kw : Nat) (t : Key) : DOut :=
  pubKeys tbl beh kw t (topicChain t) ⟨[], [], Option.none⟩

/-- Outcome of a `publish` call: `assertFail` when the entry assertion
`assert isinstance(topic, (str, tuple))` rejects the topic. -/
inductive PublishResult where
  | assertFail
  | out (o : DOut)
deriving DecidableEq

/-- `PubSub.publish` entry (`__init__.py` lines 75-109): the assertion on
line 87 rejects `None`; a bare string is wrapped into a 1-tuple; then the
hierarchical loop runs. -/
def publish (tbl : Subs) (beh : Nat → Beh) (topic : PyTopic) (kw : Nat) :
    PublishResult :=
  match topic with
  | .none => .assertFail
  | .str s => .out (publishKey tbl beh kw [s])
  | .tup ts => .out (publishKey tbl beh kw ts)

/-- The live references stored under key `k`, in insertion order. -/
def liveRefs (tbl : Subs) (k : Key) : List Ref :=
  ((subsLookup tbl k).getD []).filter (fun r => r.alive)

/-- The full invocation list a publication of `t` should produce: for each
key of the chain (longest first), its live references in insertion order,
each called with the original topic `t` and the payload. -/
def fullCalls (tbl : Subs) (kw : Nat) (t : Key) : List (Nat × Key × Nat) :=
  (topicChain t).flatMap
    (fun p => (liveRefs tbl p).map (fun r => (r.id, t, kw)))

/-- The warnings a publication of `t` should emit: one per invoked live
subscriber whose call raises `TypeError`, in delivery order. -/
def fullWarns (tbl : Subs) (beh : Nat → Beh) (t : Key) : List Nat :=
  (topicChain t).flatMap
    (fun p => ((liveRefs tbl p).map (fun r => r.id)).filter
      (fun i => decide (beh i = Beh.typeErr)))

/-- `n` successive `add_subscriber` calls with the same arguments. -/
def addN : Nat → Subs → PyTopic → Ref → Subs
  | 0, tbl, _, _ => tbl
  | n+1, tbl, topic, r => addN n (add_subscriber tbl topic r) topic r

theorem deliverRefs_no_raise (beh : Nat → Beh) (orig : Key) (kw : Nat) :
    ∀ (refs : List Ref) (acc : DOut),
      (∀ r ∈ refs, beh r.id ≠ Beh.otherErr) →
      deliverRefs beh orig kw refs acc =
        { calls := acc.calls ++
            (refs.filter (fun r => r.alive)).map (fun r => (r.id, orig, kw)),
          warns := acc.warns ++
            ((refs.filter (fun r => r.alive)).map (fun r => r.id)).filter
              (fun i => decide (beh i = Beh.typeErr)),
          raised := acc.raised } := by
  intro refs
  induction refs with
  | nil => intro acc _; simp [deliverRefs]
  | cons r rest ih =>
    intro acc h
    have hr : beh r.id ≠ Beh.otherErr := h r (by simp)
    have hrest : ∀ x ∈ rest, beh x.id ≠ Beh.otherErr :=
      fun x hx => h x (by simp [hx])
    by_cases ha : r.alive
    · cases hb : beh r.id with
      | ok =>
        simp only [deliverRefs, ha, if_true, hb]
        rw [ih _ hrest]
        simp [List.filter_cons, ha, hb]
      | typeErr =>
        simp only [deliverRefs, ha, if_true, hb]
        rw [ih _ hrest]
        simp [List.filter_cons, ha, hb]
      | otherErr => exact absurd hb hr
    · simp only [deliverRefs, ha, if_false]
      simp only [List.filter_cons, ha]
      exact ih acc hrest

theorem pubKeys_no_raise (tbl : Subs) (beh : Nat → Beh) (kw : Nat)
    (orig : Key) (hbeh : ∀ i, beh i ≠ Beh.otherErr) :
    ∀ (ks : List Key) (acc : DOut), acc.raised = Option.none →
      pubKeys tbl beh kw orig ks acc =
        { calls := acc.calls ++ ks.flatMap
            (fun p => (liveRefs tbl p).map (fun r => (r.id, orig, kw))),
          warns := acc.warns ++ ks.flatMap
            (fun p => ((liveRefs tbl p).map (fun r => r.id)).filter
              (fun i => decide (beh i = Beh.typeErr))),
          raised := Option.none } := by
  intro ks
  induction ks with
  | nil => intro acc hacc; simp [pubKeys, ← hacc]
  | cons k rest ih =>
    intro acc hacc
    cases hk : subsLookup tbl k with
    | none =>
      simp only [pubKeys, hk, hacc, Option.isSome_none, Bool.false_eq_true,
        if_false]
      rw [ih _ hacc]
      simp [liveRefs, hk]
    | some refs =>
      have hd := deliverRefs_no_raise beh orig kw refs acc
        (fun r _ => hbeh r.id)
      simp only [pubKeys, hk, hd, hacc, Option.isSome_none, Bool.false_eq_true,
        if_false]
      rw [ih _ rfl]
      simp [liveRefs, hk, List.flatMap_cons]

theorem publishKey_no_raise (tbl : Subs) (beh : Nat → Beh) (kw : Nat)
    (t : Key) (hbeh : ∀ i, beh i ≠ Beh.otherErr) :
    publishKey tbl beh kw t =
      { calls := fullCalls tbl kw t,
        warns := fullWarns tbl beh t,
        raised := Option.none } := by
  unfold publishKey fullCalls fullWarns
  rw [pubKeys_no_raise tbl beh kw t hbeh (topicChain t) _ rfl]
  simp

/-- C8 (code_bug evaluation): `publish` rejects a `None` topic outright —
the entry assertion fails — even though `add_subscriber` and
`remove_subscriber` (and `publish`'s own docstring) treat `None` as the
empty topic. -/
theorem c8_publish_rejects_none (tbl : Subs) (beh : Nat → Beh) (kw : Nat)
    (r : Ref) (tgt : Nat) :
    publish tbl beh PyTopic.none kw = PublishResult.assertFail
    ∧ add_subscriber tbl PyTopic.none r = add_subscriber tbl (PyTopic.tup []) r
    ∧ remove_subscriber tbl PyTopic.none tgt
        = remove_subscriber tbl (PyTopic.tup []) tgt :=
  ⟨rfl, rfl, rfl⟩

theorem takesDesc_head (t : Key) (n : Nat) :
    (takesDesc t n).head? = some (t.take n) := by
  cases n <;> rfl

theorem takesDesc_getLast (t : Key) :
    ∀ n, (takesDesc t n).getLast? = some [] := by
  intro n
  induction n with
  | zero => rfl
  | succ n ih =>
    rw [takesDesc, List.getLast?_cons, ih]
    rfl

theorem takesDesc_chain (t : Key) :
    ∀ n, n ≤ t.length →
      List.Chain' (fun a b : Key => b.length < a.length) (takesDesc t n) := by
  intro n
  induction n with
  | zero => intro _; simp [takesDesc]
  | succ n ih =>
    intro h
    rw [takesDesc, List.chain'_cons']
    refine ⟨?_, ih (by omega)⟩
    intro b hb
    rw [takesDesc_head, Option.mem_some_iff] at hb
    subst hb
    simp only [List.length_take]
    omega

theorem mem_takesDesc (t : Key) :
    ∀ (n : Nat) (p : Key),
      p ∈ takesDesc t n ↔ ∃ m, m ≤ n ∧ p = t.take m := by
  intro n
  induction n with
  | zero =>
    intro p
    simp only [takesDesc, List.mem_singleton]
    constructor
    · intro h; exact ⟨0, Nat.le_refl 0, by simpa using h⟩
    · rintro ⟨m, hm, hp⟩
      have : m = 0 := Nat.le_zero.mp hm
      subst this; simpa using hp
  | succ n ih =>
    intro p
    simp only [takesDesc, List.mem_cons, ih]
    constructor
    · rintro (h | ⟨m, hm, hp⟩)
      · exact ⟨n + 1, Nat.le_refl _, h⟩
      · exact ⟨m, by omega, hp⟩
    · rintro ⟨m, hm, hp⟩
      rcases Nat.lt_or_ge m (n + 1) with hlt | hge
      · exact Or.inr ⟨m, by omega, hp⟩
      · have : m = n + 1 := by omega
        subst this; exact Or.inl hp

/-- C2: publication delivers along the key chain of the topic — the
published topic first, each subsequent key one element shorter, the empty
key last — and, within each key, in the stored (insertion) order; the
invocation list is exactly the concatenation of the per-key live lists in
that order. -/
theorem c2_delivery_order (tbl : Subs) (beh : Nat → Beh) (kw : Nat)
    (t : Key) (hbeh : ∀ i, beh i ≠ Beh.otherErr) :
    (publishKey tbl beh kw t).calls = fullCalls tbl kw t
    ∧ (topicChain t).head? = some t
    ∧ List.Chain' (fun a b : Key => b.length < a.length) (topicChain t)
    ∧ (topicChain t).getLast? = some [] := by
  refine ⟨?_, ?_, ?_, ?_⟩
  · rw [publishKey_no_raise tbl beh kw t hbeh]
  · rw [topicChain, takesDesc_head, List.take_length]
  · exact takesDesc_chain t t.length (Nat.le_refl _)
  · exact takesDesc_getLast t t.length

/-- C1: a publication of tuple `t` invokes exactly the live subscribers
registered on keys that are initial segments of `t` (the empty key
included), always passing the originally published topic `t` as the
first argument; subscribers on other keys are not invoked. -/
theorem c1_hierarchical_delivery (tbl : Subs) (beh : Nat → Beh) (kw : Nat)
    (t : Key) (hbeh : ∀ i, beh i ≠ Beh.otherErr) :
    publish tbl beh (PyTopic.tup t) kw
        = PublishResult.out (publishKey tbl beh kw t)
    ∧ (∀ c ∈ (publishKey tbl beh kw t).calls, c.2.1 = t)
    ∧ ∀ sid : Nat,
        ((sid, t, kw) ∈ (publishKey tbl beh kw t).calls ↔
          ∃ p, (∃ m, m ≤ t.length ∧ p = t.take m)
            ∧ ∃ refs, subsLookup tbl p = some refs
              ∧ ∃ r ∈ refs, r.alive = true ∧ r.id = sid) := by
  have hc := publishKey_no_raise tbl beh kw t hbeh
  refine ⟨rfl, ?_, ?_⟩
  · rw [hc]
    simp only [fullCalls, List.mem_flatMap, List.mem_map]
    rintro c ⟨p, _, r, _, rfl⟩
    rfl
  · intro sid
    rw [hc]
    simp only [fullCalls, List.mem_flatMap, List.mem_map, topicChain,
      mem_takesDesc]
    constructor
    · rintro ⟨p, hp, r, hr, heq⟩
      have hid : r.id = sid := by
        have := congrArg Prod.fst heq
        simpa using this
      rcases hL : subsLookup tbl p with _ | refs
      · rw [liveRefs, hL] at hr; simp at hr
      · rw [liveRefs, hL] at hr
        simp only [Option.getD_some, List.mem_filter] at hr
        exact ⟨p, hp, refs, hL, r, hr.1, hr.2, hid⟩
    · rintro ⟨p, hp, refs, hL, r, hrrefs, hal, hid⟩
      refine ⟨p, hp, r, ?_, by rw [hid]⟩
      rw [liveRefs, hL]
      simp [List.mem_filter, hrrefs, hal]

theorem deliverRefs_raised (beh : Nat → Beh) (orig : Key) (kw : Nat) :
    ∀ (refs : List Ref) (acc : DOut) (sid : Nat),
      (deliverRefs beh orig kw refs acc).raised = some sid →
      acc.raised = some sid ∨ beh sid = Beh.otherErr := by
  intro refs
  induction refs with
  | nil => intro acc sid h; exact Or.inl h
  | cons r rest ih =>
    intro acc sid h
    by_cases ha : r.alive
    · cases hb : beh r.id with
      | ok =>
        simp only [deliverRefs, ha, if_true, hb] at h
        rcases ih _ _ h with h' | h'
        · exact Or.inl h'
        · exact Or.inr h'
      | typeErr =>
        simp only [deliverRefs, ha, if_true, hb] at h
        rcases ih _ _ h with h' | h'
        · exact Or.inl h'
        · exact Or.inr h'
      | otherErr =>
        simp only [deliverRefs, ha, if_true, hb] at h
        have : r.id = sid := by simpa using h
        exact Or.inr (this ▸ hb)
    · simp only [deliverRefs, ha, if_false] at h
      exact ih _ _ h

theorem pubKeys_raised (tbl : Subs) (beh : Nat → Beh) (kw : Nat)
    (orig : Key) :
    ∀ (ks : List Key) (acc : DOut) (sid : Nat),
      (pubKeys tbl beh kw orig ks acc).raised = some sid →
      acc.raised = some sid ∨ beh sid = Beh.otherErr := by
  intro ks
  induction ks with
  | nil => intro acc sid h; exact Or.inl h
  | cons k rest ih =>
    intro acc sid h
    simp only [pubKeys] at h
    rcases hL : subsLookup tbl k with _ | refs <;> rw [hL] at h
    · by_cases hr : acc.raised.isSome
      · rw [if_pos hr] at h; exact Or.inl h
      · rw [if_neg hr] at h; exact ih _ _ h
    · set acc' := deliverRefs beh orig kw refs acc with hacc'
      by_cases hr : acc'.raised.isSome
      · rw [if_pos hr] at h
        exact deliverRefs_raised beh orig kw refs acc sid h
      · rw [if_neg hr] at h
        rcases ih _ _ h with h' | h'
        · exact deliverRefs_raised beh orig kw refs acc sid h'
        · exact Or.inr h'

theorem deliverRefs_keeps_raised (beh : Nat → Beh) (orig : Key) (kw : Nat) :
    ∀ (refs : List Ref) (acc : DOut), acc.raised.isSome = true →
      (deliverRefs beh orig kw refs acc).raised.isSome = true := by
  intro refs
  induction refs with
  | nil => intro acc h; exact h
  | cons r rest ih =>
    intro acc h
    by_cases ha : r.alive
    · cases hb : beh r.id with
      | ok => simp only [deliverRefs, ha, if_true, hb]; exact ih _ h
      | typeErr => simp only [deliverRefs, ha, if_true, hb]; exact ih _ h
      | otherErr => simp only [deliverRefs, ha, if_true, hb]; rfl
    · simp only [deliverRefs, ha, if_false]; exact ih _ h

theorem deliverRefs_raises (beh : Nat → Beh) (orig : Key) (kw : Nat) :
    ∀ (refs : List Ref) (acc : DOut),
      (∃ r ∈ refs, r.alive = true ∧ beh r.id = Beh.otherErr) →
      (deliverRefs beh orig kw refs acc).raised.isSome = true := by
  intro refs
  induction refs with
  | nil =>
    intro acc h
    rcases h with ⟨x, hx, _⟩
    exact absurd hx (by simp)
  | cons r rest ih =>
    intro acc h
    by_cases ha : r.alive
    · cases hb : beh r.id with
      | ok =>
        simp only [deliverRefs, ha, if_true, hb]
        apply ih
        rcases h with ⟨x, hx, hxa, hxb⟩
        rcases List.mem_cons.mp hx with rfl | hx'
        · rw [hb] at hxb; exact absurd hxb (by decide)
        · exact ⟨x, hx', hxa, hxb⟩
      | typeErr =>
        simp only [deliverRefs, ha, if_true, hb]
        apply ih
        rcases h with ⟨x, hx, hxa, hxb⟩
        rcases List.mem_cons.mp hx with rfl | hx'
        · rw [hb] at hxb; exact absurd hxb (by decide)
        · exact ⟨x, hx', hxa, hxb⟩
      | otherErr => simp only [deliverRefs, ha, if_true, hb]; rfl
    · simp only [deliverRefs, ha, if_false]
      apply ih
      rcases h with ⟨x, hx, hxa, hxb⟩
      rcases List.mem_cons.mp hx with rfl | hx'
      · exact absurd hxa ha
      · exact ⟨x, hx', hxa, hxb⟩

theorem pubKeys_raises (tbl : Subs) (beh : Nat → Beh) (kw : Nat)
    (orig : Key) :
    ∀ (ks : List Key) (acc : DOut),
      (acc.raised.isSome = true
        ∨ ∃ k ∈ ks, ∃ refs, subsLookup tbl k = some refs
            ∧ ∃ r ∈ refs, r.alive = true ∧ beh r.id = Beh.otherErr) →
      (pubKeys tbl beh kw orig ks acc).raised.isSome = true := by
  intro ks
  induction ks with
  | nil =>
    intro acc h
    rcases h with h | ⟨k, hk, _⟩
    · exact h
    · exact absurd hk (by simp)
  | cons k rest ih =>
    intro acc h
    rcases hL : subsLookup tbl k with _ | refs
    · have hstep : pubKeys tbl beh kw orig (k :: rest) acc
          = if acc.raised.isSome then acc
            else pubKeys tbl beh kw orig rest acc := by
        simp only [pubKeys, hL]
      rw [hstep]
      by_cases hr : acc.raised.isSome
      · rw [if_pos hr]; exact hr
      · rw [if_neg hr]
        apply ih
        rcases h with h | ⟨k', hk', refs', hL', hx⟩
        · exact absurd h hr
        · rcases List.mem_cons.mp hk' with rfl | hk''
          · rw [hL] at hL'; exact absurd hL' (by simp)
          · exact Or.inr ⟨k', hk'', refs', hL', hx⟩
    · have hstep : pubKeys tbl beh kw orig (k :: rest) acc
          = (if (deliverRefs beh orig kw refs acc).raised.isSome
             then deliverRefs beh orig kw refs acc
             else pubKeys tbl beh kw orig rest
               (deliverRefs beh orig kw refs acc)) := by
        simp only [pubKeys, hL]
      rw [hstep]
      by_cases hr : (deliverRefs beh orig kw refs acc).raised.isSome
      · rw [if_pos hr]; exact hr
      · rw [if_neg hr]
        apply ih
        rcases h with h | ⟨k', hk', refs', hL', hx⟩
        · exact absurd (deliverRefs_keeps_raised beh orig kw refs acc h) hr
        · rcases List.mem_cons.mp hk' with rfl | hk''
          · rw [hL] at hL'
            obtain rfl : refs = refs' := by
              injection hL'
            exact absurd (deliverRefs_raises beh orig kw refs acc hx) hr
          · exact Or.inr ⟨k', hk'', refs', hL', hx⟩

theorem deliverRefs_raised_mem (beh : Nat → Beh) (orig : Key) (kw : Nat) :
    ∀ (refs : List Ref) (acc : DOut) (sid : Nat),
      (deliverRefs beh orig kw refs acc).raised = some sid →
      acc.raised = some sid
        ∨ (sid, orig, kw) ∈ (deliverRefs beh orig kw refs acc).calls := by
  intro refs
  induction refs with
  | nil => intro acc sid h; exact Or.inl h
  | cons r rest ih =>
    intro acc sid h
    by_cases ha : r.alive
    · cases hb : beh r.id with
      | ok =>
        simp only [deliverRefs, ha, if_true, hb] at h ⊢
        rcases ih _ _ h with h' | h'
        · exact Or.inl h'
        · exact Or.inr h'
      | typeErr =>
        simp only [deliverRefs, ha, if_true, hb] at h ⊢
        rcases ih _ _ h with h' | h'
        · exact Or.inl h'
        · exact Or.inr h'
      | otherErr =>
        simp only [deliverRefs, ha, if_true, hb] at h ⊢
        right
        obtain rfl : r.id = sid := by simpa using h
        simp
    · simp only [deliverRefs, ha, if_false] at h ⊢
      exact ih _ _ h

theorem pubKeys_raised_mem (tbl : Subs) (beh : Nat → Beh) (kw : Nat)
    (orig : Key) :
    ∀ (ks : List Key) (acc : DOut) (sid : Nat),
      (pubKeys tbl beh kw orig ks acc).raised = some sid →
      acc.raised = some sid
        ∨ (sid, orig, kw) ∈ (pubKeys tbl beh kw orig ks acc).calls := by
  intro ks
  induction ks with
  | nil => intro acc sid h; exact Or.inl h
  | cons k rest ih =>
    intro acc sid h
    rcases hL : subsLookup tbl k with _ | refs
    · have hstep : pubKeys tbl beh kw orig (k :: rest) acc
          = if acc.raised.isSome then acc
            else pubKeys tbl beh kw orig rest acc := by
        simp only [pubKeys, hL]
      rw [hstep] at h ⊢
      by_cases hr : acc.raised.isSome
      · rw [if_pos hr] at h ⊢; exact Or.inl h
      · rw [if_neg hr] at h ⊢; exact ih _ _ h
    · have hstep : pubKeys tbl beh kw orig (k :: rest) acc
          = (if (deliverRefs beh orig kw refs acc).raised.isSome
             then deliverRefs beh orig kw refs acc
             else pubKeys tbl beh kw orig rest
               (deliverRefs beh orig kw refs acc)) := by
        simp only [pubKeys, hL]
      rw [hstep] at h ⊢
      by_cases hr : (deliverRefs beh orig kw refs acc).raised.isSome
      · rw [if_pos hr] at h ⊢
        exact deliverRefs_raised_mem beh orig kw refs acc sid h
      · rw [if_neg hr] at h ⊢
        rcases ih _ _ h with h' | h'
        · have : (deliverRefs beh orig kw refs acc).raised.isSome = true := by
            rw [h']; rfl
          exact absurd this hr
        · exact Or.inr h'

/-- C7: a `TypeError` raised by an invoked subscriber is warned about and
delivery continues with the remaining matching subscribers (so with no
other exceptions around, the invocation list is the full one and the
warning list marks exactly the `TypeError` subscribers); an exception
that escapes a publication is a non-`TypeError` one raised by a
subscriber that was actually invoked; and whenever some live matching
subscriber raises a non-`TypeError`, an exception really does escape
`publish` to the caller. -/
theorem c7_subscriber_error_policy (tbl : Subs) (beh : Nat → Beh)
    (kw : Nat) (t : Key) :
    ((∀ i, beh i ≠ Beh.otherErr) →
        (publishKey tbl beh kw t).raised = Option.none
        ∧ (publishKey tbl beh kw t).calls = fullCalls tbl kw t
        ∧ (publishKey tbl beh kw t).warns = fullWarns tbl beh t)
    ∧ (∀ sid, (publishKey tbl beh kw t).raised = some sid →
        beh sid = Beh.otherErr
        ∧ (sid, t, kw) ∈ (publishKey tbl beh kw t).calls)
    ∧ ((∃ p ∈ topicChain t, ∃ r ∈ liveRefs tbl p, beh r.id = Beh.otherErr) →
        (publishKey tbl beh kw t).raised.isSome = true) := by
  refine ⟨?_, ?_, ?_⟩
  · intro hbeh
    rw [publishKey_no_raise tbl beh kw t hbeh]
    exact ⟨rfl, rfl, rfl⟩
  · intro sid h
    constructor
    · rcases pubKeys_raised tbl beh kw t (topicChain t) ⟨[], [], Option.none⟩
        sid h with h' | h'
      · simp at h'
      · exact h'
    · rcases pubKeys_raised_mem tbl beh kw t (topicChain t)
        ⟨[], [], Option.none⟩ sid h with h' | h'
      · simp at h'
      · exact h'
  · rintro ⟨p, hp, r, hrl, hb⟩
    apply pubKeys_raises tbl beh kw t (topicChain t) ⟨[], [], Option.none⟩
    right
    rcases hL : subsLookup tbl p with _ | refs
    · rw [liveRefs, hL] at hrl; simp at hrl
    · rw [liveRefs, hL] at hrl
      simp only [Option.getD_some, List.mem_filter] at hrl
      exact ⟨p, hp, refs, hL, r, hrl.1, hrl.2, hb⟩

theorem addN_entry (k : Key) (r : Ref) :
    ∀ (n : Nat) (rs : List Ref),
      addN n [(k, rs)] (PyTopic.tup k) r = [(k, rs ++ List.replicate n r)] := by
  intro n
  induction n with
  | zero => intro rs; simp [addN]
  | succ n ih =>
    intro rs
    rw [addN]
    have h1 : add_subscriber [(k, rs)] (PyTopic.tup k) r = [(k, rs ++ [r])] := by
      simp [add_subscriber, normalizeSub, addEntry]
    rw [h1, ih]
    simp [List.replicate_succ, List.append_assoc]

theorem deliverRefs_replicate (beh : Nat → Beh) (orig : Key) (kw : Nat)
    (r : Ref) (hal : r.alive = true) (hok : beh r.id = Beh.ok) :
    ∀ (n : Nat) (acc : DOut),
      deliverRefs beh orig kw (List.replicate n r) acc =
        { acc with calls := acc.calls ++ List.replicate n (r.id, orig, kw) } := by
  intro n
  induction n with
  | zero => intro acc; simp [deliverRefs]
  | succ n ih =>
    intro acc
    rw [List.replicate_succ]
    simp only [deliverRefs, hal, if_true, hok]
    rw [ih]
    simp [List.replicate_succ, List.append_assoc]

theorem pubKeys_single_miss (l : List Ref) (beh : Nat → Beh) (kw : Nat)
    (k : Key) :
    ∀ (m : Nat), m < k.length → ∀ (acc : DOut),
      pubKeys [(k, l)] beh kw k (takesDesc k m) acc = acc := by
  intro m
  induction m with
  | zero =>
    intro h acc
    have hne : k ≠ [] := by
      intro hk; rw [hk] at h; simp at h
    simp [takesDesc, pubKeys, subsLookup, hne]
  | succ m ih =>
    intro h acc
    have hne : k ≠ k.take (m + 1) := by
      intro hk
      have hlen := congrArg List.length hk
      simp only [List.length_take] at hlen
      omega
    have hmiss : subsLookup [(k, l)] (k.take (m + 1)) = Option.none := by
      simp [subsLookup, hne]
    rw [takesDesc]
    simp only [pubKeys, hmiss]
    by_cases hr : acc.raised.isSome
    · rw [if_pos hr]
    · rw [if_neg hr]
      exact ih (by omega) acc

theorem publishKey_single (l : List Ref) (beh : Nat → Beh) (kw : Nat)
    (k : Key) :
    publishKey [(k, l)] beh kw k
      = deliverRefs beh k kw l ⟨[], [], Option.none⟩ := by
  have hk : subsLookup [(k, l)] k = some l := by simp [subsLookup]
  unfold publishKey topicChain
  cases hlen : k.length with
  | zero =>
    have hk0 : k = [] := List.length_eq_zero.mp hlen
    subst hk0
    simp only [takesDesc, pubKeys, hk]
    split <;> rfl
  | succ d =>
    have ht : k.take (d + 1) = k := by
      conv_lhs => rw [← hlen]
      exact List.take_length k
    rw [takesDesc]
    simp only [pubKeys, ht, hk]
    by_cases hr : (deliverRefs beh k kw l ⟨[], [], Option.none⟩).raised.isSome
    · rw [if_pos hr]
    · rw [if_neg hr]
      exact pubKeys_single_miss l beh kw k d (by omega) _

/-- C10: `n` `add_subscriber` calls with the same topic and subscriber
append `n` separate references; a matching publication then invokes that
subscriber `n` times; one `remove_subscriber` call removes only the first
matching reference, leaving `n - 1` active. -/
theorem c10_duplicate_subscriptions (n : Nat) (k : List String) (r : Ref)
    (kw : Nat) (beh : Nat → Beh) (hn : 1 ≤ n) (hal : r.alive = true)
    (hok : beh r.id = Beh.ok) :
    addN n [] (PyTopic.tup k) r = [(k, List.replicate n r)]
    ∧ (publishKey (addN n [] (PyTopic.tup k) r) beh kw k).calls
        = List.replicate n (r.id, k, kw)
    ∧ remove_subscriber (addN n [] (PyTopic.tup k) r) (PyTopic.tup k) r.id
        = [(k, List.replicate (n - 1) r)] := by
  obtain ⟨m, rfl⟩ : ∃ m, n = m + 1 := ⟨n - 1, by omega⟩
  have htbl : addN (m + 1) [] (PyTopic.tup k) r
      = [(k, List.replicate (m + 1) r)] := by
    rw [addN]
    have h1 : add_subscriber [] (PyTopic.tup k) r = [(k, [r])] := rfl
    rw [h1, addN_entry]
    simp [List.replicate_succ]
  refine ⟨htbl, ?_, ?_⟩
  · rw [htbl, publishKey_single,
      deliverRefs_replicate beh k kw r hal hok]
    simp
  · rw [htbl]
    simp only [remove_subscriber, normalizeSub, subsLookup, if_pos rfl,
      updateEntry]
    rw [List.replicate_succ]
    simp [removeFirstRef, hal]

/-- Concrete subscription table for the local-dispatcher witnesses:
live subscribers 1, 2 on key `("a")`, live 3 and dead 4 on `("a","b")`,
live 5 on `("x")`. -/
def tblW : Subs :=
  [(["a"], [⟨1, true⟩, ⟨2, true⟩]),
   (["a", "b"], [⟨3, true⟩, ⟨4, false⟩]),
   (["x"], [⟨5, true⟩])]

/-- Concrete behavior: subscriber 2 raises `TypeError`, the rest return
normally. -/
def behW : Nat → Beh := fun i => if i = 2 then Beh.typeErr else Beh.ok

theorem behW_no_otherErr : ∀ i, behW i ≠ Beh.otherErr := by
  intro i
  simp only [behW]
  split <;> simp

/-- C1 witness: the hierarchical-delivery theorem applied to a concrete
table and topic. -/
theorem c1_hierarchical_delivery_witness :
    publish tblW behW (PyTopic.tup ["a", "b"]) 0
        = PublishResult.out (publishKey tblW behW 0 ["a", "b"])
    ∧ (∀ c ∈ (publishKey tblW behW 0 ["a", "b"]).calls, c.2.1 = ["a", "b"])
    ∧ ∀ sid : Nat,
        ((sid, ["a", "b"], 0) ∈ (publishKey tblW behW 0 ["a", "b"]).calls ↔
          ∃ p, (∃ m, m ≤ (["a", "b"] : Key).length ∧ p = (["a", "b"] : Key).take m)
            ∧ ∃ refs, subsLookup tblW p = some refs
              ∧ ∃ r ∈ refs, r.alive = true ∧ r.id = sid) :=
  c1_hierarchical_delivery tblW behW 0 ["a", "b"] behW_no_otherErr

/-- C2 witness: the delivery-order theorem applied to a concrete table
and topic. -/
theorem c2_delivery_order_witness :
    (publishKey tblW behW 3 ["x"]).calls = fullCalls tblW 3 ["x"]
    ∧ (topicChain ["x"]).head? = some ["x"]
    ∧ List.Chain' (fun a b : Key => b.length < a.length) (topicChain ["x"])
    ∧ (topicChain ["x"]).getLast? = some [] :=
  c2_delivery_order tblW behW 3 ["x"] behW_no_otherErr

/-- Behavior with every subscriber returning normally. -/
def behOk : Nat → Beh := fun _ => Beh.ok

/-- C10 witness: two duplicate subscriptions of subscriber 7 on key
`("a")`, evaluated concretely. -/
theorem c10_duplicate_subscriptions_witness :
    addN 2 [] (PyTopic.tup ["a"]) ⟨7, true⟩
        = [(["a"], List.replicate 2 ⟨7, true⟩)]
    ∧ (publishKey (addN 2 [] (PyTopic.tup ["a"]) ⟨7, true⟩) behOk 3 ["a"]).calls
        = List.replicate 2 (7, ["a"], 3)
    ∧ remove_subscriber (addN 2 [] (PyTopic.tup ["a"]) ⟨7, true⟩)
          (PyTopic.tup ["a"]) 7
        = [(["a"], List.replicate 1 ⟨7, true⟩)] :=
  c10_duplicate_subscriptions 2 ["a"] ⟨7, true⟩ 3 behOk (by omega) rfl rfl

/-- Ids of the live references of a list, in order. -/
def liveIds (subs : List Ref) : List Nat :=
  (subs.filter (fun r => r.alive)).map (fun r => r.id)

/-- The `for ref in subs` iteration of `publish` (`__init__.py` lines
99-106) over the *stored* list, with in-flight unsubscription: the
CPython list iterator keeps a cursor `i` into the current list; a live
subscriber is invoked, and if its action is `some tgt` it calls
`remove_subscriber` for the same key, which removes the first live
reference with id `tgt` from this very list (`subs.remove(ref)`), the
later elements shifting left while the cursor still advances. `fuel`
bounds the iterations: the cursor grows by one per step and the list
never grows, so `subs.length` steps always suffice and the wrapper
passes exactly that. -/
def pubIterGo (act : Nat → Option Nat) :
    Nat → List Ref → Nat → List Nat → List Nat × List Ref
  | 0, subs, _, acc => (acc, subs)
  | fuel + 1, subs, i, acc =>
    if h : i < subs.length then
      if subs[i].alive then
        match act subs[i].id with
        | Option.none => pubIterGo act fuel subs (i + 1) (acc ++ [subs[i].id])
        | some tgt =>
            pubIterGo act fuel (removeFirstRef subs tgt) (i + 1)
              (acc ++ [subs[i].id])
      else pubIterGo act fuel subs (i + 1) acc
    else (acc, subs)

/-- One key's delivery under mutation: the invoked subscriber ids in
order, and the final state of the key's list. -/
def pubIterMut (act : Nat → Option Nat) (subs : List Ref) :
    List Nat × List Ref :=
  pubIterGo act subs.length subs 0 []

/-- Action table: subscriber 0 unsubscribes itself when invoked; nobody
else acts. -/
def actSelf0 : Nat → Option Nat :=
  fun i => if i = 0 then some 0 else Option.none

theorem pubIterGo_done (act : Nat → Option Nat) :
    ∀ (fuel : Nat) (subs : List Ref) (i : Nat) (acc : List Nat),
      subs.length ≤ i → pubIterGo act fuel subs i acc = (acc, subs) := by
  intro fuel
  cases fuel with
  | zero => intro subs i acc _; rfl
  | succ fuel =>
    intro subs i acc h
    rw [pubIterGo, dif_neg (by omega)]

theorem pubIterGo_seg (act : Nat → Option Nat) :
    ∀ (n fuel : Nat) (subs : List Ref) (i : Nat) (acc : List Nat),
      (∀ r ∈ (subs.drop i).take n, act r.id = Option.none) →
      pubIterGo act (n + fuel) subs i acc
        = pubIterGo act fuel subs (i + n)
            (acc ++ liveIds ((subs.drop i).take n)) := by
  intro n
  induction n with
  | zero =>
    intro fuel subs i acc _
    simp [liveIds]
  | succ n ih =>
    intro fuel subs i acc hact
    by_cases h : i < subs.length
    · have hdrop : subs.drop i = subs[i] :: subs.drop (i + 1) :=
        List.drop_eq_getElem_cons h
      have hhead : act subs[i].id = Option.none := by
        apply hact
        rw [hdrop, List.take_succ_cons]
        exact List.mem_cons_self _ _
      have hfuel : n + 1 + fuel = (n + fuel) + 1 := by omega
      rw [hfuel, pubIterGo, dif_pos h]
      have htake : (subs.drop i).take (n + 1)
          = subs[i] :: (subs.drop (i + 1)).take n := by
        rw [hdrop, List.take_succ_cons]
      have hrest : ∀ r ∈ (subs.drop (i + 1)).take n, act r.id = Option.none := by
        intro r hr
        apply hact
        rw [htake]
        simp [hr]
      by_cases ha : subs[i].alive
      · rw [if_pos ha, hhead, ih fuel subs (i + 1) (acc ++ [subs[i].id]) hrest]
        rw [htake]
        have hidx : i + 1 + n = i + (n + 1) := by omega
        rw [hidx]
        simp [liveIds, List.filter_cons, ha]
      · rw [if_neg ha, ih fuel subs (i + 1) acc hrest]
        rw [htake]
        have hidx : i + 1 + n = i + (n + 1) := by omega
        rw [hidx]
        simp [liveIds, List.filter_cons, ha]
    · have hnil : subs.drop i = [] := List.drop_eq_nil_of_le (by omega)
      rw [hnil]
      simp only [List.take_nil, liveIds, List.filter_nil, List.map_nil,
        List.append_nil]
      rw [pubIterGo_done act _ subs i acc (by omega),
        pubIterGo_done act fuel subs (i + (n + 1)) acc (by omega)]

theorem pubIterGo_rest (act : Nat → Option Nat) (subs : List Ref) (i : Nat)
    (acc : List Nat) (fuel : Nat)
    (hact : ∀ r ∈ subs.drop i, act r.id = Option.none)
    (hfuel : subs.length ≤ i + fuel) :
    pubIterGo act fuel subs i acc = (acc ++ liveIds (subs.drop i), subs) := by
  obtain ⟨f2, hf2⟩ : ∃ f2, fuel = (subs.length - i) + f2 :=
    ⟨fuel - (subs.length - i), by omega⟩
  have hfull : (subs.drop i).take (subs.length - i) = subs.drop i := by
    conv_lhs => rw [← List.length_drop]
    exact List.take_length _
  rw [hf2, pubIterGo_seg act (subs.length - i) f2 subs i acc
    (fun r hr => hact r (List.mem_of_mem_take hr))]
  rw [hfull]
  rw [pubIterGo_done act f2 subs (i + (subs.length - i))
    (acc ++ liveIds (subs.drop i)) (by omega)]

theorem removeFirstRef_append (self : Ref) (tgt : Nat) :
    ∀ (xs rest : List Ref),
      (∀ r ∈ xs, ¬(r.alive = true ∧ r.id = tgt)) →
      self.alive = true → self.id = tgt →
      removeFirstRef (xs ++ self :: rest) tgt = xs ++ rest := by
  intro xs
  induction xs with
  | nil =>
    intro rest _ hal hid
    simp [removeFirstRef, hal, hid]
  | cons x xs ih =>
    intro rest h hal hid
    have hx : ¬(x.alive = true ∧ x.id = tgt) := h x (by simp)
    simp only [List.cons_append, removeFirstRef, if_neg hx]
    exact congrArg (fun l => x :: l)
      (ih rest (fun r hr => h r (by simp [hr])) hal hid)

/-- C9 (amended): delivery under an in-flight self-unsubscription
completes without fault and returns a result, but because `publish`
iterates the stored list while `remove_subscriber` mutates it, the entry
immediately after the self-removing subscriber is skipped; the
subscribers before it and those from two positions after it are still
invoked, and the skipped entry stays subscribed. -/
theorem c9_mutation_skips_next (xs ys : List Ref) (self y : Ref)
    (act : Nat → Option Nat)
    (hxs : ∀ r ∈ xs, act r.id = Option.none)
    (hys : ∀ r ∈ ys, act r.id = Option.none)
    (hself : act self.id = some self.id)
    (hal : self.alive = true)
    (hnomatch : ∀ r ∈ xs, ¬(r.alive = true ∧ r.id = self.id)) :
    pubIterMut act (xs ++ self :: y :: ys)
      = (liveIds xs ++ self.id :: liveIds ys, xs ++ y :: ys) := by
  unfold pubIterMut
  have hlen : (xs ++ self :: y :: ys).length
      = xs.length + (ys.length + 2) := by
    simp only [List.length_append, List.length_cons]
  have hdropxs : (xs ++ self :: y :: ys).drop xs.length = self :: y :: ys :=
    List.drop_left xs (self :: y :: ys)
  have htakexs : ((xs ++ self :: y :: ys).drop 0).take xs.length = xs := by
    simp only [List.drop_zero]
    exact List.take_left xs (self :: y :: ys)
  rw [hlen, pubIterGo_seg act xs.length (ys.length + 2) _ 0 []
    (by rw [htakexs]; exact hxs)]
  rw [htakexs]
  have hixs : 0 + xs.length = xs.length := by omega
  rw [hixs]
  have hi : xs.length < (xs ++ self :: y :: ys).length := by
    rw [hlen]; omega
  have hget : (xs ++ self :: y :: ys)[xs.length] = self := by
    have := List.drop_eq_getElem_cons hi
    rw [hdropxs] at this
    exact (List.cons.injEq _ _ _ _).mp this.symm |>.1
  rw [pubIterGo, dif_pos hi, hget, if_pos hal]
  simp only [hself]
  have hrm : removeFirstRef (xs ++ self :: y :: ys) self.id
      = xs ++ y :: ys :=
    removeFirstRef_append self self.id xs (y :: ys) hnomatch hal rfl
  rw [hrm]
  have hdropped : (xs ++ y :: ys).drop (xs.length + 1) = ys := by
    have hsplit : xs ++ y :: ys = (xs ++ [y]) ++ ys := by simp
    have hlen1 : (xs ++ [y]).length = xs.length + 1 := by simp
    rw [hsplit, ← hlen1]
    exact List.drop_left _ _
  rw [pubIterGo_rest act (xs ++ y :: ys) (xs.length + 1)
    ([] ++ liveIds xs ++ [self.id]) (ys.length + 1)
    (by rw [hdropped]; exact hys)
    (by simp only [List.length_append, List.length_cons]; omega)]
  rw [hdropped]
  simp

/-- C9 counterexample, refuting the claim as stated: subscribers 0 and 1
are both live on the key; subscriber 0 removes itself during its own
invocation; subscriber 1 stays subscribed and alive yet is never invoked
— the iteration returns invocations `[0]` and final list `[⟨1, true⟩]`. -/
theorem c9_counterexample :
    pubIterMut actSelf0 [⟨0, true⟩, ⟨1, true⟩] = ([0], [⟨1, true⟩])
    ∧ (1 : Nat) ∉ (pubIterMut actSelf0 [⟨0, true⟩, ⟨1, true⟩]).1
    ∧ (⟨1, true⟩ : Ref) ∈ (pubIterMut actSelf0 [⟨0, true⟩, ⟨1, true⟩]).2
    ∧ (⟨1, true⟩ : Ref).alive = true := by
  refine ⟨by decide, by decide, by decide, rfl⟩

/-- C9 witness: the amended theorem applied to a concrete list — live
subscriber 5, then self-removing subscriber 0, then subscriber 1 (the
skipped one), then dead 2 and live 3. -/
theorem c9_mutation_skips_next_witness :
    pubIterMut actSelf0
        ([⟨5, true⟩] ++ (⟨0, true⟩ : Ref) :: (⟨1, true⟩ : Ref)
          :: [⟨2, false⟩, ⟨3, true⟩])
      = (liveIds [⟨5, true⟩] ++ (0 : Nat) :: liveIds [⟨2, false⟩, ⟨3, true⟩],
         [⟨5, true⟩] ++ (⟨1, true⟩ : Ref) :: [⟨2, false⟩, ⟨3, true⟩]) :=
  c9_mutation_skips_next [⟨5, true⟩] [⟨2, false⟩, ⟨3, true⟩]
    ⟨0, true⟩ ⟨1, true⟩ actSelf0 (by decide) (by decide) rfl rfl (by decide)

/-- Python truthiness of a topic value (`net.py` line 116: `topic and …`):
`None`, the empty string and the empty tuple are falsy. -/
def pyTruthy : PyTopic → Bool
  | .none => false
  | .str s => !(s == "")
  | .tup ts => !(ts.isEmpty)

/-- The reserved local suffix (`net.py` line 13). -/
def LOCAL_SUFFIX : String := "*local"

/-- The guard of the network `publish` override (`net.py` lines 116-118):
`topic and isinstance(topic, tuple) and topic[-1] == LOCAL_SUFFIX`.
A bare string never passes the `isinstance` check, whatever its value. -/
def isLocalTopic (t : PyTopic) : Bool :=
  pyTruthy t &&
    (match t with
     | .tup ts => decide (ts.getLast? = some LOCAL_SUFFIX)
     | _ => false)

/-- The queue state of the network endpoint relevant to `publish`:
whether a broker connection is held, and the two FIFO queues. -/
structure NetPubState where
  conn : Bool
  pendingSend : List (PyTopic × Nat)
  pendingPublish : List (PyTopic × Nat)
deriving DecidableEq

/-- The network `PubSub.publish` override (`net.py` lines 109-127): when
not connected, or when the guard recognizes a local topic, only local
dispatch runs (returned flag `true`); otherwise the message is appended
to both `pending_publish` and `pending_send` (flag `false`; the flush
that follows is modelled separately). -/
def netPublish (s : NetPubState) (topic : PyTopic) (kw : Nat) :
    NetPubState × Bool :=
  if !s.conn || isLocalTopic topic then (s, true)
  else ({ s with pendingPublish := s.pendingPublish ++ [(topic, kw)],
                 pendingSend := s.pendingSend ++ [(topic, kw)] }, false)

/-- C3 counterexample: a connected endpoint publishing the bare string
`'*local'` — whose normalized topic `('*local',)` ends in the reserved
suffix — still enqueues the message on `pending_send` for the broker,
because the guard checks `isinstance(topic, tuple)` before normalizing. -/
theorem c3_counterexample :
    (netPublish ⟨true, [], []⟩ (PyTopic.str LOCAL_SUFFIX) 0).1.pendingSend
        = [(PyTopic.str LOCAL_SUFFIX, 0)]
    ∧ (normalizeSub (PyTopic.str LOCAL_SUFFIX)).getLast? = some LOCAL_SUFFIX
    ∧ (netPublish ⟨true, [], []⟩ (PyTopic.str LOCAL_SUFFIX) 0).2 = false :=
  ⟨rfl, rfl, rfl⟩

/-- C3 (amended): on a connected endpoint, a *tuple* topic whose last
element is the reserved suffix `'*local'` is dispatched locally only —
the state (in particular `pending_send`) is untouched; the bare-string
shorthand `'*local'` is not recognized by the guard and is forwarded. -/
theorem c3_local_suffix (s : NetPubState) (ts : List String) (kw : Nat)
    (hconn : s.conn = true)
    (hlast : ts.getLast? = some LOCAL_SUFFIX) :
    netPublish s (PyTopic.tup ts) kw = (s, true) := by
  have hne : ts ≠ [] := by
    intro h; rw [h] at hlast; simp at hlast
  have hloc : isLocalTopic (PyTopic.tup ts) = true := by
    simp [isLocalTopic, pyTruthy, hlast, List.isEmpty_iff, hne]
  unfold netPublish
  rw [hconn, hloc]
  rfl

/-- C3 witness: the amended theorem at a concrete connected state and
topic `('d', '*local')`. -/
theorem c3_local_suffix_witness :
    netPublish ⟨true, [(PyTopic.str "q", 9)], []⟩
        (PyTopic.tup ["d", "*local"]) 7
      = (⟨true, [(PyTopic.str "q", 9)], []⟩, true) :=
  c3_local_suffix ⟨true, [(PyTopic.str "q", 9)], []⟩ ["d", "*local"] 7
    rfl rfl

/-- Outcome of one `Connection.send` on the endpoint (`net.py` lines
198-208): success, a `ValueError` (logged, message dropped), or a
`ConnectionResetError`. -/
inductive SendOut where
  | ok
  | valueErr
  | connReset
deriving DecidableEq

/-- State of the endpoint during `_flush` (`net.py` lines 187-217).
Messages are opaque. `inbound` is the stream of batches `_recv_all`
drains, one batch per call (what is readable at that moment). `sent`
and `delivered` record successful sends and local dispatches.
`errSnapshot` is a ghost field: set exactly once, to the value of
`pending_publish` at the moment a `ConnectionResetError` is caught. -/
structure FlushState where
  conn : Bool
  pendingSend : List Nat
  pendingPublish : List Nat
  inbound : List (List Nat)
  sent : List Nat
  delivered : List Nat
  errSnapshot : Option (List Nat)
deriving DecidableEq

/-- `_recv_all` (`net.py` lines 182-185): append everything currently
readable to `pending_publish`. -/
def recvAll (s : FlushState) : FlushState :=
  { s with pendingPublish := s.pendingPublish ++ s.inbound.headD [],
           inbound := s.inbound.tail }

/-- The inner `while True` drain (`net.py` lines 210-215): pop every
queued inbound message and dispatch it locally. -/
def drainPublish (s : FlushState) : FlushState :=
  { s with delivered := s.delivered ++ s.pendingPublish,
           pendingPublish := [] }

/-- The `_flush` loop (`net.py` lines 194-216), with `fuel` bounding the
iterations. Each pass: drain the connection, try to send one queued
outbound message — `IndexError` (empty queue) is passed over, a
`ValueError` drops the message and is logged, a `ConnectionResetError`
clears `pending_send`, nulls the connection and breaks out before the
local drain — then dispatch all of `pending_publish` locally. -/
def flushGo (sendOut : Nat → SendOut) : Nat → FlushState → FlushState
  | 0, s => s
  | fuel + 1, s =>
    if (s.pendingPublish ≠ [] ∨ s.pendingSend ≠ []) ∧ s.conn = true then
      match (recvAll s).pendingSend with
      | [] => flushGo sendOut fuel (drainPublish (recvAll s))
      | m :: rest =>
        match sendOut m with
        | .ok => flushGo sendOut fuel
            (drainPublish { (recvAll s) with pendingSend := rest, sent := (recvAll s).sent ++ [m] })
        | .valueErr => flushGo sendOut fuel
            (drainPublish { (recvAll s) with pendingSend := rest })
        | .connReset =>
            { (recvAll s) with pendingSend := [], conn := false, errSnapshot := some (recvAll s).pendingPublish }
    else s

/-- An iteration bound that always suffices: every pass consumes an
inbound batch, an outbound message or the whole of `pending_publish`. -/
def flushFuel (s : FlushState) : Nat :=
  (s.inbound.map List.length).sum + s.inbound.length
    + s.pendingSend.length + s.pendingPublish.length + 1

/-- `PubSub._flush` (`net.py` lines 187-217). -/
def flush (sendOut : Nat → SendOut) (s : FlushState) : FlushState :=
  flushGo sendOut (flushFuel s) s

theorem flushGo_reset (sendOut : Nat → SendOut) :
    ∀ (fuel : Nat) (s : FlushState) (pp : List Nat),
      s.errSnapshot = Option.none →
      (flushGo sendOut fuel s).errSnapshot = some pp →
      (flushGo sendOut fuel s).pendingSend = []
      ∧ (flushGo sendOut fuel s).conn = false
      ∧ (flushGo sendOut fuel s).pendingPublish = pp := by
  intro fuel
  induction fuel with
  | zero =>
    intro s pp h0 hsnap
    rw [flushGo] at hsnap
    rw [h0] at hsnap
    exact absurd hsnap (by simp)
  | succ fuel ih =>
    intro s pp h0 hsnap
    by_cases hc : (s.pendingPublish ≠ [] ∨ s.pendingSend ≠ []) ∧ s.conn = true
    · rcases hps : (recvAll s).pendingSend with _ | ⟨m, rest⟩
      · have heq : flushGo sendOut (fuel + 1) s
            = flushGo sendOut fuel (drainPublish (recvAll s)) := by
          simp only [flushGo, if_pos hc, hps]
        rw [heq] at hsnap ⊢
        exact ih _ _ (by simp [drainPublish, recvAll, h0]) hsnap
      · rcases hso : sendOut m with _ | _ | _
        · have heq : flushGo sendOut (fuel + 1) s
              = flushGo sendOut fuel
                  (drainPublish { (recvAll s) with pendingSend := rest, sent := (recvAll s).sent ++ [m] }) := by
            simp only [flushGo, if_pos hc, hps, hso]
          rw [heq] at hsnap ⊢
          exact ih _ _ (by simp [drainPublish, recvAll, h0]) hsnap
        · have heq : flushGo sendOut (fuel + 1) s
              = flushGo sendOut fuel
                  (drainPublish { (recvAll s) with pendingSend := rest }) := by
            simp only [flushGo, if_pos hc, hps, hso]
          rw [heq] at hsnap ⊢
          exact ih _ _ (by simp [drainPublish, recvAll, h0]) hsnap
        · have heq : flushGo sendOut (fuel + 1) s
              = { (recvAll s) with pendingSend := [], conn := false, errSnapshot := some (recvAll s).pendingPublish } := by
            simp only [flushGo, if_pos hc, hps, hso]
          rw [heq] at hsnap ⊢
          refine ⟨rfl, rfl, ?_⟩
          have : some (recvAll s).pendingPublish = some pp := hsnap
          simpa using this
    · have heq : flushGo sendOut (fuel + 1) s = s := by
        rw [flushGo, if_neg hc]
      rw [heq] at hsnap
      rw [h0] at hsnap
      exact absurd hsnap (by simp)

/-- C6: if a send inside `_flush` raises `ConnectionResetError`, then
when `_flush` returns `pending_send` is empty, the connection handle is
nulled, and `pending_publish` holds exactly what it held at the moment
of the error — no inbound message already received is discarded. -/
theorem c6_flush_reset_frame (sendOut : Nat → SendOut) (s : FlushState)
    (pp : List Nat) (h0 : s.errSnapshot = Option.none)
    (hsnap : (flush sendOut s).errSnapshot = some pp) :
    (flush sendOut s).pendingSend = []
    ∧ (flush sendOut s).conn = false
    ∧ (flush sendOut s).pendingPublish = pp :=
  flushGo_reset sendOut (flushFuel s) s pp h0 hsnap

/-- Send behavior for the C6 witness: every send resets the connection. -/
def sendOutReset : Nat → SendOut := fun _ => SendOut.connReset

/-- Initial endpoint state for the C6 witness: connected, one queued
outbound message `5`, one readable inbound batch `[7]`. -/
def flushW : FlushState :=
  ⟨true, [5], [], [[7]], [], [], Option.none⟩

/-- C6 witness: on the concrete state the reset is hit after message `7`
was received, and the theorem's conclusion holds with
`pending_publish = [7]`. -/
theorem c6_flush_reset_frame_witness :
    (flush sendOutReset flushW).pendingSend = []
    ∧ (flush sendOutReset flushW).conn = false
    ∧ (flush sendOutReset flushW).pendingPublish = [7] :=
  c6_flush_reset_frame sendOutReset flushW [7] rfl rfl

/-- State threaded through one broker forward step (`broker.py` `_send`,
lines 227-254): the destinations closed by a `ConnectionError` so far
and the successful sends, as (destination, source, payload). -/
structure BSendState where
  closed : List Nat
  sent : List (Nat × Nat × Nat)
deriving DecidableEq

/-- One destination of the inner loop of `_send` (lines 237-249): skip
the payload's source, the control connection and destinations already in
the closed set; on `ConnectionError` close the destination and record
it; on `ValueError` log and continue; otherwise deliver. A
`ConnectionError` means the destination itself is dead, so `fails` is a
property of the destination; a `ValueError` concerns pickling the
payload on that connection, so `verrs` takes both. -/
def sendToDst (control : Nat) (fails : Nat → Bool)
    (verrs : Nat → Nat → Bool) (src msg : Nat)
    (st : BSendState) (dst : Nat) : BSendState :=
  if dst = src ∨ dst = control ∨ dst ∈ st.closed then st
  else if fails dst then { st with closed := st.closed ++ [dst] }
  else if verrs dst msg then st
  else { st with sent := st.sent ++ [(dst, src, msg)] }

/-- The outer loop of `_send` over one pending payload: try every
connection of the snapshot. -/
def sendPayload (control : Nat) (fails : Nat → Bool)
    (verrs : Nat → Nat → Bool) (clients : List Nat)
    (st : BSendState) (p : Nat × Nat) : BSendState :=
  clients.foldl (sendToDst control fails verrs p.1 p.2) st

/-- `Broker._send` (lines 227-254): forward every pending payload to the
client snapshot, then clear the pending queue (the second component is
the pending list after the call). -/
def brokerSend (control : Nat) (fails : Nat → Bool)
    (verrs : Nat → Nat → Bool) (clients : List Nat)
    (pending : List (Nat × Nat)) : BSendState × List (Nat × Nat) :=
  (pending.foldl (sendPayload control fails verrs clients) ⟨[], []⟩, [])

/-- The destinations of the snapshot that actually receive payload
(src, msg): not the source, not control, no connection error, no value
error. -/
def okDsts (control : Nat) (fails : Nat → Bool)
    (verrs : Nat → Nat → Bool) (clients : List Nat)
    (src msg : Nat) : List Nat :=
  clients.filter (fun d =>
    !(decide (d = src)) && !(decide (d = control)) && !(fails d)
      && !(verrs d msg))

theorem sendPayload_sent (control : Nat) (fails : Nat → Bool)
    (verrs : Nat → Nat → Bool) (src msg : Nat) :
    ∀ (clients : List Nat) (st : BSendState),
      (∀ d ∈ st.closed, fails d = true) →
      ((clients.foldl (sendToDst control fails verrs src msg) st).sent
          = st.sent ++ (okDsts control fails verrs clients src msg).map
              (fun d => (d, src, msg))
        ∧ ∀ d ∈ (clients.foldl (sendToDst control fails verrs src msg) st).closed,
            fails d = true) := by
  intro clients
  induction clients with
  | nil =>
    intro st h
    exact ⟨by simp [okDsts], h⟩
  | cons c cs ih =>
    intro st h
    rw [List.foldl_cons]
    by_cases hskip : c = src ∨ c = control ∨ c ∈ st.closed
    · have hstep : sendToDst control fails verrs src msg st c = st := by
        rw [sendToDst, if_pos hskip]
      rw [hstep]
      obtain ⟨h1, h2⟩ := ih st h
      refine ⟨?_, h2⟩
      rw [h1]
      rcases hskip with h' | h' | h'
      · simp [okDsts, List.filter_cons, h']
      · simp [okDsts, List.filter_cons, h']
      · have hf : fails c = true := h c h'
        simp [okDsts, List.filter_cons, hf]
    · push_neg at hskip
      obtain ⟨hsrc, hctl, hcl⟩ := hskip
      by_cases hf : fails c
      · have hstep : sendToDst control fails verrs src msg st c
            = { st with closed := st.closed ++ [c] } := by
          rw [sendToDst, if_neg (by simp [hsrc, hctl, hcl]), if_pos hf]
        rw [hstep]
        obtain ⟨h1, h2⟩ := ih { st with closed := st.closed ++ [c] }
          (by intro d hd
              rcases List.mem_append.mp hd with hd' | hd'
              · exact h d hd'
              · rw [List.mem_singleton.mp hd']; exact hf)
        refine ⟨?_, h2⟩
        rw [h1]
        simp [okDsts, List.filter_cons, hf]
      · by_cases hv : verrs c msg
        · have hstep : sendToDst control fails verrs src msg st c = st := by
            rw [sendToDst, if_neg (by simp [hsrc, hctl, hcl]), if_neg (by simp [hf]),
              if_pos hv]
          rw [hstep]
          obtain ⟨h1, h2⟩ := ih st h
          refine ⟨?_, h2⟩
          rw [h1]
          simp [okDsts, List.filter_cons, hv]
        · have hstep : sendToDst control fails verrs src msg st c
              = { st with sent := st.sent ++ [(c, src, msg)] } := by
            rw [sendToDst, if_neg (by simp [hsrc, hctl, hcl]), if_neg (by simp [hf]),
              if_neg (by simp [hv])]
          rw [hstep]
          obtain ⟨h1, h2⟩ := ih { st with sent := st.sent ++ [(c, src, msg)] } h
          refine ⟨?_, h2⟩
          rw [h1]
          simp [okDsts, List.filter_cons, hsrc, hctl, hf, hv]

theorem brokerSend_foldl (control : Nat) (fails : Nat → Bool)
    (verrs : Nat → Nat → Bool) (clients : List Nat) :
    ∀ (pending : List (Nat × Nat)) (st : BSendState),
      (∀ d ∈ st.closed, fails d = true) →
      ((pending.foldl (sendPayload control fails verrs clients) st).sent
          = st.sent ++ pending.flatMap (fun p =>
              (okDsts control fails verrs clients p.1 p.2).map
                (fun d => (d, p.1, p.2)))
        ∧ ∀ d ∈ (pending.foldl (sendPayload control fails verrs clients) st).closed,
            fails d = true) := by
  intro pending
  induction pending with
  | nil => intro st h; exact ⟨by simp, h⟩
  | cons p ps ih =>
    intro st h
    rw [List.foldl_cons]
    obtain ⟨h1, h2⟩ := sendPayload_sent control fails verrs p.1 p.2 clients st h
    obtain ⟨h3, h4⟩ := ih (sendPayload control fails verrs clients st p) h2
    refine ⟨?_, h4⟩
    rw [h3]
    rw [show (sendPayload control fails verrs clients st p).sent
        = (clients.foldl (sendToDst control fails verrs p.1 p.2) st).sent from rfl]
    rw [h1]
    simp [List.flatMap_cons, List.append_assoc]

/-- C4: a broker forward step empties the pending queue; only
destinations whose send raised `ConnectionError` end up closed; and a
payload (src, msg) reaches destination `dst` exactly when `dst` is in
the snapshot, is neither the source nor the control connection, and the
send neither hits a dead connection nor raises `ValueError` — in
particular one destination's failure never blocks the others. -/
theorem c4_broker_forward_step (control : Nat) (fails : Nat → Bool)
    (verrs : Nat → Nat → Bool) (clients : List Nat)
    (pending : List (Nat × Nat)) :
    (brokerSend control fails verrs clients pending).2 = []
    ∧ (∀ d ∈ (brokerSend control fails verrs clients pending).1.closed,
        fails d = true)
    ∧ ∀ dst src msg,
        ((dst, src, msg) ∈ (brokerSend control fails verrs clients pending).1.sent
          ↔ (src, msg) ∈ pending ∧ dst ∈ clients ∧ dst ≠ src ∧ dst ≠ control
              ∧ fails dst = false ∧ verrs dst msg = false) := by
  obtain ⟨h1, h2⟩ := brokerSend_foldl control fails verrs clients pending
    ⟨[], []⟩ (by intro d hd; simp at hd)
  refine ⟨rfl, h2, ?_⟩
  intro dst src msg
  show (dst, src, msg) ∈ (pending.foldl (sendPayload control fails verrs clients)
    ⟨[], []⟩).sent ↔ _
  rw [h1]
  simp only [List.nil_append, List.mem_flatMap, List.mem_map, okDsts,
    List.mem_filter, Bool.and_eq_true, Bool.not_eq_true', decide_eq_false_iff_not]
  constructor
  · rintro ⟨⟨psrc, pmsg⟩, hp, d, ⟨hd, ⟨⟨⟨hdsrc, hdctl⟩, hdf⟩, hdv⟩⟩, heq⟩
    rw [Prod.mk.injEq, Prod.mk.injEq] at heq
    obtain ⟨e1, e2, e3⟩ := heq
    subst e1
    subst e2
    subst e3
    exact ⟨hp, hd, hdsrc, hdctl, hdf, hdv⟩
  · rintro ⟨hpend, hcl, hdsrc, hdctl, hdf, hdv⟩
    exact ⟨(src, msg), hpend, dst, ⟨hcl, ⟨⟨⟨hdsrc, hdctl⟩, hdf⟩, hdv⟩⟩, rfl⟩

/-- A value received on a broker connection, as the protocol comment in
`broker.py` (lines 78-89) names them: `True` is INIT, `Ellipsis` is
NEWPUBSUB, `False` is STOP, `None` is NEWCONN (and is also what an EOF
or `OSError` on `recv` is turned into in the main loop, lines 187-194);
anything else is a pub-sub payload. -/
inductive WireMsg where
  | wTrue
  | wEllipsis
  | wFalse
  | wNone
  | wPayload (m : Nat)
deriving DecidableEq

/-- Effects of handling one received value in the main broker loop
(`broker.py` lines 196-207): what is echoed back on the receiving
connection, whether the connection is closed and added to the closed
set, whether the value is queued as a pending payload, whether the loop
records that it must exit, and whether the `assert msg is None` holds. -/
structure ConnEffect where
  echoes : List WireMsg
  closedConn : Bool
  queued : Option WireMsg
  exitLoop : Bool
  assertOk : Bool
deriving DecidableEq

/-- `Broker._broker`, one received value (`broker.py` lines 196-207): on
the control connection every value is first echoed back
(`control.send(msg)`); `False` (STOP) then makes the loop exit, and any
other value than `None` (NEWCONN) fails the assertion. On a regular
connection `None` (EOF) and `False` (STOP) close the connection without
any echo; every other value is queued as a payload, also without echo. -/
def brokerHandleConn (isControl : Bool) (msg : WireMsg) : ConnEffect :=
  if isControl then
    { echoes := [msg],
      closedConn := false,
      queued := Option.none,
      exitLoop := msg = WireMsg.wFalse,
      assertOk := msg = WireMsg.wFalse ∨ msg = WireMsg.wNone }
  else if msg = WireMsg.wNone ∨ msg = WireMsg.wFalse then
    { echoes := [], closedConn := true, queued := Option.none,
      exitLoop := false, assertOk := true }
  else
    { echoes := [], closedConn := false, queued := some msg,
      exitLoop := false, assertOk := true }

/-- Effects of one connection handled by `Broker._get_control_conn`
(`broker.py` lines 138-158): `True` (INIT) is echoed and the connection
kept as control; `Ellipsis` (NEWPUBSUB) is echoed; `False` (STOP)
removes and closes the connection with no echo; anything else is
buffered into the pending queue with no echo. -/
structure CtrlEffect where
  echoes : List WireMsg
  isCtrl : Bool
  removed : Bool
  buffered : Option WireMsg
deriving DecidableEq

def getControlStep : WireMsg → CtrlEffect
  | .wTrue => ⟨[WireMsg.wTrue], true, false, Option.none⟩
  | .wEllipsis => ⟨[WireMsg.wEllipsis], false, false, Option.none⟩
  | .wFalse => ⟨[], false, true, Option.none⟩
  | m => ⟨[], false, false, some m⟩

/-- The handshake of the accept loop (`broker.py` lines 117-123): only
`Ellipsis` (NEWPUBSUB) is echoed; any other first message closes the
connection without an echo. -/
def acceptStep : WireMsg → List WireMsg
  | .wEllipsis => [WireMsg.wEllipsis]
  | _ => []

/-- C5 counterexample: the broker receiving STOP (`False`) on the
control connection echoes it straight back — `control.send(msg)` runs
before the STOP test (lines 196-199), and `start()` relies on that echo
(`control.send(False); control.recv()`, lines 107-108). -/
theorem c5_counterexample :
    (brokerHandleConn true WireMsg.wFalse).echoes = [WireMsg.wFalse]
    ∧ (brokerHandleConn true WireMsg.wFalse).exitLoop = true := by
  refine ⟨rfl, by decide⟩

/-- C5 (amended): STOP from a regular client connection is never echoed
(the connection is just closed), and STOP during control-connection
setup is not echoed either; but on the established control connection
every received token — STOP included — is echoed back. INIT and
NEWPUBSUB are echoed at their handshakes, and NEWCONN is echoed on the
control connection. -/
theorem c5_stop_ack (m : WireMsg) :
    (brokerHandleConn false WireMsg.wFalse).echoes = []
    ∧ (brokerHandleConn false WireMsg.wFalse).closedConn = true
    ∧ (getControlStep WireMsg.wFalse).echoes = []
    ∧ (brokerHandleConn true m).echoes = [m]
    ∧ (getControlStep WireMsg.wTrue).echoes = [WireMsg.wTrue]
    ∧ (getControlStep WireMsg.wEllipsis).echoes = [WireMsg.wEllipsis]
    ∧ acceptStep WireMsg.wEllipsis = [WireMsg.wEllipsis]
    ∧ (brokerHandleConn true WireMsg.wNone).echoes = [WireMsg.wNone] := by
  refine ⟨rfl, by decide, rfl, ?_, rfl, rfl, rfl, rfl⟩
  cases m <;> rfl
